import Mathlib

/-!
Verification of the DECS key-value server core against its specification.

The development shallowly embeds the C++ sources:
* `include/LRUCache.h` — the LRU cache (`LRUCache`), the locked shard
  wrapper (`LRUShard`) and the sharded cache (`ShardedLRUCache`);
* `src/server/KVServer.h` — the DB connection pool (`DBPool`);
* `src/server/KVServer.cpp` — the request handlers (`HandleGet`,
  `HandlePut`, `HandleDelete`, `HandleGetPopular`) and the table adapter
  (`db_select_value`, `db_upsert`, `db_delete`).

The `std::list` of cache nodes is modelled as a Lean list whose head is the
most recent entry; `std::list` iterators are stable node handles, modelled by
tagging every node with a unique identifier (`Node.id`).  The
`std::unordered_map` from keys to iterators is modelled as an association
list from keys to node identifiers.  MySQL connections (`MYSQL*`) are
modelled as natural numbers with `0` playing the role of the null pointer,
and the outcome of each MySQL call is an explicit oracle parameter.
-/

/-- One node of the recency list `_item_list`: a stable identifier standing
for the `std::list` node identity (iterator target), the key and the value. -/
structure Node where
  id : Nat
  key : Int
  val : String
  deriving DecidableEq, Repr

/-- State of one `LRUCache<long long, std::string>`: the capacity
`_capacity`, the recency list `_item_list` (head = most recently used), the
index `_item_map` as an association list key ↦ node identifier, and a
counter supplying fresh node identifiers. -/
structure LRUState where
  capacity : Nat
  items : List Node
  index : List (Int × Nat)
  nextId : Nat
  deriving DecidableEq, Repr

/-- `_item_map.find(key)`: look the key up in the index. -/
def mapFind (m : List (Int × Nat)) (k : Int) : Option Nat :=
  (m.find? (fun p => p.1 = k)).map Prod.snd

/-- `_item_map.erase(key)`: remove the key from the index. -/
def mapErase (m : List (Int × Nat)) (k : Int) : List (Int × Nat) :=
  m.filter (fun p => p.1 ≠ k)

/-- `_item_map[key] = it`: insert-or-assign on the index. -/
def mapInsert (m : List (Int × Nat)) (k : Int) (id : Nat) : List (Int × Nat) :=
  (k, id) :: mapErase m k

/-- `_item_list.splice(_item_list.begin(), _item_list, it)`: move the node
with the given identifier to the front, leaving the list unchanged if no
node carries that identifier. -/
def listSplice (items : List Node) (id : Nat) : List Node :=
  match items.find? (fun e => e.id = id) with
  | none => items
  | some e => e :: items.filter (fun x => x.id ≠ id)

/-- `it->second->second = value`: overwrite the value stored in the node
with the given identifier. -/
def listUpdateVal (items : List Node) (id : Nat) (v : String) : List Node :=
  items.map (fun e => if e.id = id then { e with val := v } else e)

/-- `LRUCache::LRUCache(capacity)`: the constructor stores the capacity
argument unchanged and starts with an empty list and index. -/
def LRU.init (capacity : Nat) : LRUState :=
  { capacity := capacity, items := [], index := [], nextId := 0 }

/-- `LRUCache::Put` from `include/LRUCache.h`: on an existing key overwrite
the value and splice the node to the front; otherwise, if the list is at
capacity, pop the tail and erase its key from the index, then emplace the
new node at the front and record it in the index. -/
def LRU.put (s : LRUState) (k : Int) (v : String) : LRUState :=
  match mapFind s.index k with
  | some id =>
      { s with items := listSplice (listUpdateVal s.items id v) id }
  | none =>
      let s1 :=
        if s.items.length = s.capacity then
          match s.items.getLast? with
          | some e => { s with items := s.items.dropLast,
                               index := mapErase s.index e.key }
          | none => s
        else s
      { s1 with items := ⟨s1.nextId, k, v⟩ :: s1.items,
                index := mapInsert s1.index k s1.nextId,
                nextId := s1.nextId + 1 }

/-- `LRUCache::Get` from `include/LRUCache.h`: a missing key is a miss and
leaves the state unchanged; a present key has its node spliced to the front
and its value returned. -/
def LRU.get (s : LRUState) (k : Int) : Option String × LRUState :=
  match mapFind s.index k with
  | none => (none, s)
  | some id =>
      match s.items.find? (fun e => e.id = id) with
      | none => (none, { s with items := listSplice s.items id })
      | some e => (some e.val, { s with items := listSplice s.items id })

/-- `LRUCache::Erase` from `include/LRUCache.h`: if the key is present,
unlink its node from the list and erase the key from the index. -/
def LRU.erase (s : LRUState) (k : Int) : LRUState :=
  match mapFind s.index k with
  | none => s
  | some id =>
      { s with items := s.items.filter (fun e => e.id ≠ id),
               index := mapErase s.index k }

/-- The key sequence of the recency list, head = most recent. -/
abbrev keysOf (s : LRUState) : List Int := s.items.map Node.key

/-- One shard operation, as issued through `LRUShard`. -/
inductive CacheOp where
  | put (k : Int) (v : String)
  | get (k : Int)
  | erase (k : Int)
  deriving DecidableEq, Repr

/-- Apply one operation to a shard state. -/
def applyOp (s : LRUState) : CacheOp → LRUState
  | CacheOp.put k v => LRU.put s k v
  | CacheOp.get k => (LRU.get s k).2
  | CacheOp.erase k => LRU.erase s k

/-- Apply a sequence of operations to a shard state. -/
def applyOps (s : LRUState) (ops : List CacheOp) : LRUState :=
  ops.foldl applyOp s

/-! ## Sharded cache, as in `include/LRUCache.h` -/

/-- `std::hash<long long>` (libstdc++): the identity on the 64-bit two's
complement bit pattern, i.e. the key reduced modulo `2^64`. -/
def stdHashLL (k : Int) : Nat := (k % (2 : Int) ^ 64).toNat

/-- `ShardedLRUCache::shard_of`: hash of the key modulo the shard count. -/
def shard_of (k : Int) (n : Nat) : Nat := stdHashLL k % n

/-- The sharded cache `_shards`: one `LRUState` per shard. -/
abbrev SCache : Type := List LRUState

/-- `ShardedLRUCache::ShardedLRUCache(total_capacity, shard_count)`: a zero
shard count is clamped to 1, the per-shard capacity is
`max(1, total_capacity / shard_count)`, and each shard starts empty. -/
def shardedInit (total_capacity shard_count : Nat) : SCache :=
  let n := if shard_count = 0 then 1 else shard_count
  List.replicate n (LRU.init (max 1 (total_capacity / n)))

/-- `ShardedLRUCache::Get`: route to the key's shard and run that shard's
lookup, writing the (possibly respliced) shard back. -/
def scGet (c : SCache) (k : Int) : Option String × SCache :=
  let i := shard_of k c.length
  match List.get? c i with
  | none => (none, c)
  | some s =>
      let r := LRU.get s k
      (r.1, c.set i r.2)

/-- `ShardedLRUCache::Put`: route to the key's shard and insert there. -/
def scPut (c : SCache) (k : Int) (v : String) : SCache :=
  let i := shard_of k c.length
  match List.get? c i with
  | none => c
  | some s => c.set i (LRU.put s k v)

/-- `ShardedLRUCache::Erase`: route to the key's shard and erase there. -/
def scErase (c : SCache) (k : Int) : SCache :=
  let i := shard_of k c.length
  match List.get? c i with
  | none => c
  | some s => c.set i (LRU.erase s k)

/-! ## Locking discipline of `LRUShard` (`include/LRUCache.h`) -/

/-- The two lock modes a `std::shared_mutex` offers. -/
inductive LockKind where
  | sharedLock
  | uniqueLock
  deriving DecidableEq, Repr

/-- `LRUShard::Get` acquires `std::shared_lock<std::shared_mutex>`. -/
def lruShardGetLockKind : LockKind := LockKind.sharedLock

/-- `LRUShard::Put` acquires `std::unique_lock<std::shared_mutex>`. -/
def lruShardPutLockKind : LockKind := LockKind.uniqueLock

/-- `LRUShard::Erase` acquires `std::unique_lock<std::shared_mutex>`. -/
def lruShardEraseLockKind : LockKind := LockKind.uniqueLock

/-! ## Table adapter (`src/server/KVServer.cpp`) -/

/-- Oracle for one `SELECT` round trip: `mysql_query` may fail,
`mysql_store_result` may return null, `mysql_fetch_row` yields a row with a
value or no row at all. -/
inductive SelectOutcome where
  | queryError
  | resultNull
  | rowFound (v : String)
  | noRow
  deriving DecidableEq, Repr

/-- `db_select_value`: a null connection, a query error, a null result set
and an empty result set are all collapsed into `none`; only a fetched row
produces `some` value. -/
def db_select_value (conn : Nat) (o : SelectOutcome) : Option String :=
  if conn = 0 then none
  else
    match o with
    | SelectOutcome.queryError => none
    | SelectOutcome.resultNull => none
    | SelectOutcome.rowFound v => some v
    | SelectOutcome.noRow => none

/-- `db_upsert`: fails on a null connection, otherwise reports the store's
verdict on the `INSERT ... ON DUPLICATE KEY UPDATE`. -/
def db_upsert (conn : Nat) (ok : Bool) : Bool :=
  if conn = 0 then false else ok

/-- Oracle for one `DELETE` round trip: either `mysql_query` fails or the
statement succeeds with a number of affected rows. -/
inductive DbDelResult where
  | queryError
  | okRows (affected : Nat)
  deriving DecidableEq, Repr

/-- `db_delete`: `(false, 0)` on a null connection or a failed query,
otherwise `(true, mysql_affected_rows)`. -/
def db_delete (conn : Nat) (r : DbDelResult) : Bool × Nat :=
  if conn = 0 then (false, 0)
  else
    match r with
    | DbDelResult.queryError => (false, 0)
    | DbDelResult.okRows n => (true, n)

/-! ## Request handlers (`src/server/KVServer.cpp`)

Each handler takes the raw `key` parameter string, the result of
`std::stoll` on it (`none` models the thrown exception), the acquired
connection and an oracle for the store round trip, plus the cache, and
returns the response status, the response body and the cache afterwards. -/

/-- `int int_key = std::stoll(key_param)` in `HandleGet`, `HandlePut` and
`HandleGetPopular` stores the parsed 64-bit key into an `int`: reduction to
the signed 32-bit range. -/
def toInt32 (k : Int) : Int := (k + 2 ^ 31) % 2 ^ 32 - 2 ^ 31

/-- `KVServer::HandleGet` (the compiled `#else` branch): missing or
non-integer key give 400; a cache hit answers directly; on a miss a null
connection gives 503, an empty `db_select_value` gives 404, and a value
populates the cache and gives 200.  The key is narrowed through `int`. -/
def handleGet (key_param : String) (stoll_r : Option Int) (conn : Nat)
    (cache : SCache) (o : SelectOutcome) : Nat × String × SCache :=
  if key_param.isEmpty then (400, "Missing Key parameter", cache)
  else
    match stoll_r with
    | none => (400, "Key must be an integer", cache)
    | some k =>
        let int_key := toInt32 k
        let probe := scGet cache int_key
        match probe.1 with
        | some v => (200, v, probe.2)
        | none =>
            if conn = 0 then (503, "No DB connection available", probe.2)
            else
              match db_select_value conn o with
              | none => (404, "Key not found", probe.2)
              | some v => (200, v, scPut probe.2 int_key v)

/-- `KVServer::HandleGetPopular` (the compiled `#if 1` branch): identical to
`HandleGet` except that the select runs through the thread pool and there is
no null-connection check before it. -/
def handleGetPopular (key_param : String) (stoll_r : Option Int) (conn : Nat)
    (cache : SCache) (o : SelectOutcome) : Nat × String × SCache :=
  if key_param.isEmpty then (400, "Missing Key parameter", cache)
  else
    match stoll_r with
    | none => (400, "Key must be an integer", cache)
    | some k =>
        let int_key := toInt32 k
        let probe := scGet cache int_key
        match probe.1 with
        | some v => (200, v, probe.2)
        | none =>
            match db_select_value conn o with
            | none => (404, "Key not found", probe.2)
            | some v => (200, v, scPut probe.2 int_key v)

/-- `KVServer::HandlePut` (the compiled `#if 1` branch): an empty key or
value parameter gives 400, a non-integer key gives 400, a failed upsert
gives 500 leaving the cache alone, and a successful upsert inserts into the
cache and gives 200.  The key is narrowed through `int`. -/
def handlePut (key_param value_param : String) (stoll_r : Option Int)
    (conn : Nat) (upsert_ok : Bool) (cache : SCache) : Nat × String × SCache :=
  if key_param.isEmpty || value_param.isEmpty then
    (400, "Missing Key/Value parameter", cache)
  else
    match stoll_r with
    | none => (400, "Key must be an integer", cache)
    | some k =>
        let int_key := toInt32 k
        if db_upsert conn upsert_ok then
          (200, "Key-value pair stored successfully", scPut cache int_key value_param)
        else (500, "Database write failed", cache)

/-- `KVServer::HandleDelete` (the compiled `#if 1` branch): an empty key
parameter gives 400, a non-integer key gives 400, a failed delete gives 500
leaving the cache alone, a delete affecting rows erases the key from the
cache and gives 200, and a delete affecting no rows gives 404 leaving the
cache alone.  The key stays a `long long`: no narrowing. -/
def handleDelete (key_param : String) (stoll_r : Option Int) (conn : Nat)
    (r : DbDelResult) (cache : SCache) : Nat × String × SCache :=
  if key_param.isEmpty then (400, "Missing Key parameter", cache)
  else
    match stoll_r with
    | none => (400, "Key must be integer", cache)
    | some int_key =>
        let dres := db_delete conn r
        if dres.1 then
          if 0 < dres.2 then
            (200, "Key deleted successfully", scErase cache int_key)
          else (404, "Key not found in database", cache)
        else (500, "Database delete failed", cache)

/-! ## Connection pool (`src/server/KVServer.h`) -/

/-- `DBPool::DBPool`: each element of `attempts` is the `MYSQL*` produced by
`mysql_init` plus `mysql_real_connect` for one slot (`0` = failure).  The
constructor pushes connections in order and throws on the first failure,
closing what it already opened. -/
def mkDBPoolConns : List Nat → Except String (List Nat)
  | [] => Except.ok []
  | c :: rest =>
      if c = 0 then Except.error "mysql_real_connect failed"
      else (mkDBPoolConns rest).map (fun l => c :: l)

/-- `DBPool::acquire` after `_cv.wait(lock, [&]{ return !_pool.empty(); })`:
the wait guarantees a non-empty idle queue, then the front connection is
popped and handed out. -/
def dbPoolAcquire (pool : List Nat) (h : pool ≠ []) : Nat × List Nat :=
  (pool.head h, pool.tail)

/-- The deleter installed by `DBPool::acquire`: the borrowed connection is
pushed back onto the idle queue. -/
def dbPoolRelease (pool : List Nat) (c : Nat) : List Nat :=
  pool ++ [c]

/-! ## Helper lemmas about misses and shard write-back -/

/-- Setting a position of a list to the value it already holds is the
identity. -/
theorem listSet_get_self : ∀ (c : List α) (i : Nat) (s : α),
    c.get? i = some s → c.set i s = c
  | [], _, _, h => by cases h
  | _ :: _, 0, s, h => by
      simp only [List.get?] at h
      cases h
      rfl
  | a :: c, i + 1, s, h => by
      simp only [List.get?] at h
      simp [List.set, listSet_get_self c i s h]

/-- A missed `LRUCache::Get` leaves the shard state unchanged. -/
theorem LRU.get_miss_state (s : LRUState) (k : Int)
    (h : (LRU.get s k).1 = none) : (LRU.get s k).2 = s := by
  cases hf : mapFind s.index k with
  | none => simp [LRU.get, hf]
  | some id =>
      cases hn : s.items.find? (fun e => e.id = id) with
      | none => simp only [LRU.get, hf, hn, listSplice]
      | some e => simp [LRU.get, hf, hn] at h

/-- A missed `ShardedLRUCache::Get` leaves the whole cache unchanged. -/
theorem scGet_miss_state (c : SCache) (k : Int)
    (h : (scGet c k).1 = none) : (scGet c k).2 = c := by
  cases hc : List.get? c (shard_of k c.length) with
  | none => simp only [scGet, hc]
  | some s =>
      simp only [scGet, hc] at h ⊢
      rw [LRU.get_miss_state s k h]
      exact listSet_get_self c _ s hc

/-! ## Claims -/

/-- C2: the spec requires the shard lookup to take the exclusive write lock
because lookup mutates the recency list.  The code instead takes the shared
reader lock in `LRUShard::Get` while the wrapped `LRUCache::Get` does mutate
the recency list, as the concrete two-entry shard below shows: looking up
key 1 reorders the items.  This is the code bug the spec explicitly calls
out ("implementations that advertise a reader lock on GET are incorrect"). -/
theorem c2_lookup_takes_shared_lock_while_mutating :
    lruShardGetLockKind = LockKind.sharedLock ∧
    lruShardGetLockKind ≠ LockKind.uniqueLock ∧
    (LRU.get (applyOps (LRU.init 2) [CacheOp.put 1 "a", CacheOp.put 2 "b"]) 1).2.items
      ≠ (applyOps (LRU.init 2) [CacheOp.put 1 "a", CacheOp.put 2 "b"]).items := by
  refine ⟨rfl, by decide, by decide⟩

/-- C5 counterexample: `LRUCache::LRUCache` stores its capacity argument
unchanged, so the directly constructed cache of capacity 0 really has
capacity 0, refuting the claim that every constructor clamps to at least 1. -/
theorem c5_counterexample :
    (LRU.init 0).capacity = 0 ∧ ¬ (1 ≤ (LRU.init 0).capacity) := by
  decide

/-- C5 amended: only `ShardedLRUCache::ShardedLRUCache` clamps — it forces a
zero shard count to 1 and gives every shard capacity
`max(1, total_capacity / shard_count)`, so every shard it builds has
capacity at least 1; the plain `LRUCache` constructor does not clamp. -/
theorem c5_sharded_ctor_clamps (total_capacity shard_count : Nat) :
    ∀ s ∈ shardedInit total_capacity shard_count, 1 ≤ s.capacity := by
  intro s hs
  unfold shardedInit at hs
  rcases List.eq_of_mem_replicate hs with rfl
  simp [LRU.init]

/-- C5 amended, witness: a concrete shard of the sharded constructor. -/
theorem c5_sharded_ctor_clamps_witness :
    LRU.init 1 ∈ shardedInit 0 0 ∧ 1 ≤ (LRU.init 1).capacity :=
  ⟨by decide, c5_sharded_ctor_clamps 0 0 (LRU.init 1) (by decide)⟩

/-- C7: `HandleGet` and `HandlePut` declare `int int_key` and assign the
result of `std::stoll` into it, truncating the parsed 64-bit key to 32
bits, while the cache and the store work with `long long` keys.  At key
2^32 = 4294967296 the truncation yields 0, so a GET for key 4294967296
returns the value previously PUT under key 0 — the key actually used is not
the parsed key, refuting the no-narrowing claim. -/
theorem c7_get_put_narrow_key_to_int :
    toInt32 ((2 : Int) ^ 32) = 0 ∧ ((2 : Int) ^ 32) ≠ 0 ∧
    (handleGet "4294967296" (some ((2 : Int) ^ 32)) 1
        (handlePut "0" "zero-value" (some 0) 1 true (shardedInit 8 8)).2.2
        SelectOutcome.noRow).1 = 200 ∧
    (handleGet "4294967296" (some ((2 : Int) ^ 32)) 1
        (handlePut "0" "zero-value" (some 0) 1 true (shardedInit 8 8)).2.2
        SelectOutcome.noRow).2.1 = "zero-value" := by
  decide

/-- C8 counterexample: a PUT whose value parameter is the empty string is
rejected with 400 before any store contact, refuting the claim that it
proceeds to the upsert. -/
theorem c8_counterexample :
    (handlePut "5" "" (some 5) 1 true (shardedInit 8 8)).1 = 400 ∧
    (handlePut "5" "" (some 5) 1 true (shardedInit 8 8)).2.2 = shardedInit 8 8 := by
  decide

/-- C8 amended: `HandlePut` cannot distinguish an empty value parameter from
a missing one; every PUT with an empty value is answered 400
("Missing Key/Value parameter") and neither the store nor the cache is
touched. -/
theorem c8_empty_value_rejected (key_param : String) (stoll_r : Option Int)
    (conn : Nat) (upsert_ok : Bool) (cache : SCache) :
    handlePut key_param "" stoll_r conn upsert_ok cache
      = (400, "Missing Key/Value parameter", cache) := by
  have h : ("" : String).isEmpty = true := rfl
  unfold handlePut
  simp [h]

/-- C1 counterexample: a store-side error during the select (a failed
`mysql_query`) is answered 404 like an absent key, not 500, refuting the
claim that GET reports it as server-error and distinguishes the two
outcomes. -/
theorem c1_counterexample :
    (handleGet "1" (some 1) 1 (shardedInit 8 8) SelectOutcome.queryError).1 = 404 ∧
    (handleGet "1" (some 1) 1 (shardedInit 8 8) SelectOutcome.queryError).1 ≠ 500 := by
  decide

/-- C1 amended: on a cache miss every select outcome other than a fetched
row — a failed query, a null result set, or simply no matching row — is
answered 404 ("Key not found") and the cache is left unmodified; GET does
not distinguish the store-error outcome from the absent outcome. -/
theorem c1_select_error_reported_as_not_found (key_param : String) (k : Int)
    (conn : Nat) (cache : SCache) (o : SelectOutcome)
    (hkp : key_param.isEmpty = false)
    (hmiss : (scGet cache (toInt32 k)).1 = none)
    (hconn : conn ≠ 0)
    (hnorow : ∀ v, o ≠ SelectOutcome.rowFound v) :
    handleGet key_param (some k) conn cache o = (404, "Key not found", cache) := by
  have hdb : db_select_value conn o = none := by
    cases o with
    | queryError => simp [db_select_value, hconn]
    | resultNull => simp [db_select_value, hconn]
    | noRow => simp [db_select_value, hconn]
    | rowFound v => exact absurd rfl (hnorow v)
  have hstate := scGet_miss_state cache (toInt32 k) hmiss
  simp [handleGet, hkp, hmiss, hconn, hdb, hstate]

/-- C1 amended, witness: concrete miss with a failed query. -/
theorem c1_select_error_witness :
    ("1" : String).isEmpty = false ∧
    (scGet (shardedInit 8 8) (toInt32 1)).1 = none ∧
    (1 : Nat) ≠ 0 ∧
    (∀ v, SelectOutcome.queryError ≠ SelectOutcome.rowFound v) ∧
    handleGet "1" (some 1) 1 (shardedInit 8 8) SelectOutcome.queryError
      = (404, "Key not found", shardedInit 8 8) :=
  ⟨rfl, by decide, by decide, fun v h => SelectOutcome.noConfusion h,
   c1_select_error_reported_as_not_found "1" 1 1 (shardedInit 8 8)
     SelectOutcome.queryError rfl (by decide) (by decide)
     (fun v h => SelectOutcome.noConfusion h)⟩

/-- C3: `HandleDelete` with a well-formed key: a failed store delete is
answered 500 with the cache untouched; a successful delete affecting rows
erases the key from the cache and answers 200; a successful delete
affecting no rows answers 404 with the cache untouched. -/
theorem c3_delete_branches (key_param : String) (k : Int) (conn : Nat)
    (cache : SCache)
    (hkp : key_param.isEmpty = false) (hconn : conn ≠ 0) :
    handleDelete key_param (some k) conn DbDelResult.queryError cache
        = (500, "Database delete failed", cache) ∧
    (∀ n, 0 < n →
      handleDelete key_param (some k) conn (DbDelResult.okRows n) cache
        = (200, "Key deleted successfully", scErase cache k)) ∧
    handleDelete key_param (some k) conn (DbDelResult.okRows 0) cache
        = (404, "Key not found in database", cache) := by
  refine ⟨?_, ?_, ?_⟩
  · simp [handleDelete, db_delete, hkp, hconn]
  · intro n hn
    simp [handleDelete, db_delete, hkp, hconn, hn]
  · simp [handleDelete, db_delete, hkp, hconn]

/-- C3 witness: concrete delete against each stubbed store outcome. -/
theorem c3_delete_branches_witness :
    ("9" : String).isEmpty = false ∧ (1 : Nat) ≠ 0 ∧
    (handleDelete "9" (some 9) 1 DbDelResult.queryError (shardedInit 8 8)
        = (500, "Database delete failed", shardedInit 8 8) ∧
    (∀ n, 0 < n →
      handleDelete "9" (some 9) 1 (DbDelResult.okRows n) (shardedInit 8 8)
        = (200, "Key deleted successfully", scErase (shardedInit 8 8) 9)) ∧
    handleDelete "9" (some 9) 1 (DbDelResult.okRows 0) (shardedInit 8 8)
        = (404, "Key not found in database", shardedInit 8 8)) :=
  ⟨rfl, by decide, c3_delete_branches "9" 9 1 (shardedInit 8 8) rfl (by decide)⟩

/-- C9: with any non-null connection — and the pool never hands out a null
one — `HandleGetPopular` returns exactly the response and cache state of
`HandleGet` on every request, cache state and store outcome: get popular is
an alias of GET. -/
theorem c9_get_popular_aliases_get (key_param : String) (stoll_r : Option Int)
    (conn : Nat) (cache : SCache) (o : SelectOutcome) (hconn : conn ≠ 0) :
    handleGetPopular key_param stoll_r conn cache o
      = handleGet key_param stoll_r conn cache o := by
  cases stoll_r with
  | none => rfl
  | some k =>
      unfold handleGet handleGetPopular
      cases hkp : key_param.isEmpty with
      | true => simp
      | false =>
          simp only [Bool.false_eq_true, if_false]
          cases hp : (scGet cache (toInt32 k)).1 with
          | some v => simp [hp]
          | none => simp [hp, hconn]

/-- C9 witness: a concrete request evaluated through both handlers. -/
theorem c9_get_popular_aliases_get_witness :
    (1 : Nat) ≠ 0 ∧
    handleGetPopular "7" (some 7) 1 (shardedInit 8 8) (SelectOutcome.rowFound "x")
      = handleGet "7" (some 7) 1 (shardedInit 8 8) (SelectOutcome.rowFound "x") :=
  ⟨by decide,
   c9_get_popular_aliases_get "7" (some 7) 1 (shardedInit 8 8)
     (SelectOutcome.rowFound "x") (by decide)⟩

/-- Every connection in a successfully constructed pool is non-null. -/
theorem mkDBPoolConns_all_nonzero (attempts : List Nat) :
    ∀ pool, mkDBPoolConns attempts = Except.ok pool → ∀ c ∈ pool, c ≠ 0 := by
  induction attempts with
  | nil =>
      intro pool h c hc
      simp only [mkDBPoolConns] at h
      cases h
      simp at hc
  | cons a rest ih =>
      intro pool h c hc
      by_cases ha : a = 0
      · simp [mkDBPoolConns, ha] at h
      · simp only [mkDBPoolConns, ha, if_false] at h
        cases hr : mkDBPoolConns rest with
        | error e => rw [hr] at h; simp [Except.map] at h
        | ok l =>
            rw [hr] at h
            simp only [Except.map] at h
            injection h with h2
            subst h2
            rcases List.mem_cons.mp hc with rfl | hc2
            · exact ha
            · exact ih l hr c hc2

/-- `HandleGet` never answers 503 when the connection it got is non-null. -/
theorem handleGet_status_ne_503 (key_param : String) (stoll_r : Option Int)
    (conn : Nat) (cache : SCache) (o : SelectOutcome) (hconn : conn ≠ 0) :
    (handleGet key_param stoll_r conn cache o).1 ≠ 503 := by
  unfold handleGet
  cases hkp : key_param.isEmpty with
  | true => simp
  | false =>
      simp only [Bool.false_eq_true, if_false]
      cases stoll_r with
      | none => simp
      | some k =>
          simp only
          cases hp : (scGet cache (toInt32 k)).1 with
          | some v => simp [hp]
          | none =>
              simp only [hp, if_neg hconn]
              cases hdb : db_select_value conn o with
              | none => simp [hdb]
              | some v => simp [hdb]

/-- C10: a successfully constructed pool holds only non-null connections,
`acquire` (whose wait guarantees a non-empty idle queue) pops the front of
that queue, so the connection handed out is never null and the 503 branch
of `HandleGet` is unreachable: GET never answers 503. -/
theorem c10_acquire_nonnull_get_never_503 (attempts pool : List Nat)
    (hmk : mkDBPoolConns attempts = Except.ok pool) (hne : pool ≠ []) :
    (dbPoolAcquire pool hne).1 ≠ 0 ∧
    ∀ key_param stoll_r cache o,
      (handleGet key_param stoll_r (dbPoolAcquire pool hne).1 cache o).1 ≠ 503 := by
  have hnz : (dbPoolAcquire pool hne).1 ≠ 0 :=
    mkDBPoolConns_all_nonzero attempts pool hmk _ (List.head_mem hne)
  exact ⟨hnz, fun key_param stoll_r cache o =>
    handleGet_status_ne_503 key_param stoll_r _ cache o hnz⟩

/-- C10 witness: a one-connection pool built from a successful connect. -/
theorem c10_acquire_nonnull_witness :
    mkDBPoolConns [1] = Except.ok [1] ∧
    (((dbPoolAcquire [1] (by decide)).1 ≠ 0) ∧
      ∀ key_param stoll_r cache o,
        (handleGet key_param stoll_r (dbPoolAcquire [1] (by decide)).1 cache o).1 ≠ 503) :=
  ⟨rfl, c10_acquire_nonnull_get_never_503 [1] [1] rfl (by decide)⟩

/-! ## The shard invariant (C4): index/list consistency, uniqueness,
capacity bound -/

/-- Well-formedness of a shard: capacity at least 1; keys and node
identifiers are unique in the recency list; identifiers are below the
freshness counter; index keys are unique; every index handle points to the
node holding that key (`handle_sound`); every node is indexed under its key
(`handle_complete`); the size respects the capacity. -/
structure WF (s : LRUState) : Prop where
  cap_pos : 1 ≤ s.capacity
  keys_nodup : (s.items.map Node.key).Nodup
  ids_nodup : (s.items.map Node.id).Nodup
  ids_lt : ∀ e ∈ s.items, e.id < s.nextId
  index_keys_nodup : (s.index.map Prod.fst).Nodup
  handle_sound : ∀ k id, (k, id) ∈ s.index → ∃ e ∈ s.items, e.id = id ∧ e.key = k
  handle_complete : ∀ e ∈ s.items, (e.key, e.id) ∈ s.index
  size_le : s.items.length ≤ s.capacity

theorem mapFind_eq_none {m : List (Int × Nat)} {k : Int} :
    mapFind m k = none ↔ ∀ p ∈ m, p.1 ≠ k := by
  simp [mapFind, List.find?_eq_none]

theorem mapFind_mem {m : List (Int × Nat)} {k : Int} {id : Nat}
    (h : mapFind m k = some id) : (k, id) ∈ m := by
  unfold mapFind at h
  cases hf : m.find? (fun p => p.1 = k) with
  | none => rw [hf] at h; cases h
  | some p =>
      rw [hf] at h
      have hp : p.1 = k := by
        have := List.find?_some hf
        simpa using this
      have hm : p ∈ m := List.mem_of_find?_eq_some hf
      have hid : p.2 = id := by simpa using h
      have : p = (k, id) := by
        cases p
        simp_all
      rwa [this] at hm

theorem mapFind_of_mem {m : List (Int × Nat)}
    (hnd : (m.map Prod.fst).Nodup) {k : Int} {id : Nat}
    (hmem : (k, id) ∈ m) : mapFind m k = some id := by
  induction m with
  | nil => cases hmem
  | cons p rest ih =>
      rcases List.mem_cons.mp hmem with rfl | htail
      · simp [mapFind]
      · have hne : p.1 ≠ k := by
          intro he
          have : k ∈ rest.map Prod.fst :=
            List.mem_map.mpr ⟨(k, id), htail, rfl⟩
          rw [List.map_cons] at hnd
          rw [he] at hnd
          exact (List.nodup_cons.mp hnd).1 this
        have hrest := ih (by rw [List.map_cons] at hnd; exact (List.nodup_cons.mp hnd).2) htail
        unfold mapFind at hrest ⊢
        rw [List.find?_cons_of_neg _ (by simpa using hne)]
        exact hrest

/-- Splicing a node to the front permutes the list when node identifiers
are unique. -/
theorem listSplice_perm (l : List Node) (id : Nat)
    (hnd : (l.map Node.id).Nodup) : (listSplice l id).Perm l := by
  induction l with
  | nil => simp [listSplice]
  | cons h t ih =>
      rw [List.map_cons, List.nodup_cons] at hnd
      by_cases hh : h.id = id
      · unfold listSplice
        rw [List.find?_cons_of_pos _ (by simpa using hh)]
        have hfil : (h :: t).filter (fun x => decide (x.id ≠ id)) = t := by
          rw [List.filter_cons_of_neg (by simp [hh])]
          apply List.filter_eq_self.mpr
          intro x hx
          have : x.id ∈ t.map Node.id := List.mem_map.mpr ⟨x, hx, rfl⟩
          have hxid : x.id ≠ id := by
            intro he
            rw [he, ← hh] at this
            exact hnd.1 this
          simpa using hxid
        rw [hfil]
      · unfold listSplice
        rw [List.find?_cons_of_neg _ (by simpa using hh)]
        cases hf : t.find? (fun e => e.id = id) with
        | none => rfl
        | some e =>
            have ihp := ih hnd.2
            unfold listSplice at ihp
            rw [hf] at ihp
            rw [List.filter_cons_of_pos (by simpa using hh)]
            exact List.Perm.trans (List.Perm.swap h e _) (List.Perm.cons h ihp)

/-- Node identifiers determine nodes inside a list with unique identifiers. -/
theorem node_eq_of_id_eq {l : List Node} (hnd : (l.map Node.id).Nodup)
    {e f : Node} (he : e ∈ l) (hf : f ∈ l) (h : e.id = f.id) : e = f :=
  List.inj_on_of_nodup_map hnd he hf h

/-- Keys determine nodes inside a list with unique keys. -/
theorem node_eq_of_key_eq {l : List Node} (hnd : (l.map Node.key).Nodup)
    {e f : Node} (he : e ∈ l) (hf : f ∈ l) (h : e.key = f.key) : e = f :=
  List.inj_on_of_nodup_map hnd he hf h

theorem listUpdateVal_map_id (l : List Node) (id : Nat) (v : String) :
    (listUpdateVal l id v).map Node.id = l.map Node.id := by
  unfold listUpdateVal
  rw [List.map_map]
  apply List.map_congr_left
  intro e he
  by_cases hh : e.id = id <;> simp [hh]

theorem listUpdateVal_map_key (l : List Node) (id : Nat) (v : String) :
    (listUpdateVal l id v).map Node.key = l.map Node.key := by
  unfold listUpdateVal
  rw [List.map_map]
  apply List.map_congr_left
  intro e he
  by_cases hh : e.id = id <;> simp [hh]

theorem listUpdateVal_mem {l : List Node} {e : Node} (he : e ∈ l)
    (id : Nat) (v : String) :
    ∃ f ∈ listUpdateVal l id v, f.id = e.id ∧ f.key = e.key := by
  unfold listUpdateVal
  refine ⟨_, List.mem_map_of_mem _ he, ?_⟩
  by_cases hh : e.id = id <;> simp [hh]

theorem listUpdateVal_mem_rev {l : List Node} {id : Nat} {v : String} {f : Node}
    (hf : f ∈ listUpdateVal l id v) : ∃ e ∈ l, f.id = e.id ∧ f.key = e.key := by
  unfold listUpdateVal at hf
  obtain ⟨e, he, rfl⟩ := List.mem_map.mp hf
  refine ⟨e, he, ?_⟩
  by_cases hh : e.id = id <;> simp [hh]

/-- `LRUCache::Get` preserves the shard invariant. -/
theorem WF_get (s : LRUState) (k : Int) (h : WF s) : WF (LRU.get s k).2 := by
  cases hf : mapFind s.index k with
  | none => simpa [LRU.get, hf] using h
  | some id =>
      cases hn : s.items.find? (fun e => e.id = id) with
      | none =>
          have hsp : listSplice s.items id = s.items := by simp [listSplice, hn]
          simp only [LRU.get, hf, hn, hsp]
          exact h
      | some e =>
          simp only [LRU.get, hf, hn]
          have hperm := listSplice_perm s.items id h.ids_nodup
          refine ⟨h.cap_pos, ?_, ?_, ?_, h.index_keys_nodup, ?_, ?_, ?_⟩
          · exact ((hperm.map Node.key).nodup_iff).mpr h.keys_nodup
          · exact ((hperm.map Node.id).nodup_iff).mpr h.ids_nodup
          · intro f hfm
            exact h.ids_lt f (hperm.mem_iff.mp hfm)
          · intro k0 id0 hk0
            obtain ⟨f, hfm, hfi, hfk⟩ := h.handle_sound k0 id0 hk0
            exact ⟨f, hperm.mem_iff.mpr hfm, hfi, hfk⟩
          · intro f hfm
            exact h.handle_complete f (hperm.mem_iff.mp hfm)
          · rw [hperm.length_eq]
            exact h.size_le

/-- `LRUCache::Erase` preserves the shard invariant. -/
theorem WF_erase (s : LRUState) (k : Int) (h : WF s) : WF (LRU.erase s k) := by
  cases hf : mapFind s.index k with
  | none => simpa [LRU.erase, hf] using h
  | some id =>
      obtain ⟨e, he, heid, hekey⟩ := h.handle_sound k id (mapFind_mem hf)
      simp only [LRU.erase, hf]
      refine ⟨h.cap_pos, ?_, ?_, ?_, ?_, ?_, ?_, ?_⟩
      · exact ((List.filter_sublist _).map Node.key).nodup h.keys_nodup
      · exact ((List.filter_sublist _).map Node.id).nodup h.ids_nodup
      · intro f hfm
        exact h.ids_lt f (List.mem_of_mem_filter hfm)
      · exact (((List.filter_sublist _).map Prod.fst).nodup h.index_keys_nodup)
      · intro k0 id0 hk0
        have hk0m : (k0, id0) ∈ s.index := List.mem_of_mem_filter hk0
        have hk0ne : k0 ≠ k := by
          have := (List.mem_filter.mp hk0).2
          simpa using this
        obtain ⟨f, hfm, hfi, hfk⟩ := h.handle_sound k0 id0 hk0m
        refine ⟨f, List.mem_filter.mpr ⟨hfm, ?_⟩, hfi, hfk⟩
        have hfne : f.id ≠ id := by
          intro hfid
          have : f = e := node_eq_of_id_eq h.ids_nodup hfm he (by rw [hfid, heid])
          rw [this] at hfk
          exact hk0ne (hfk ▸ hekey ▸ rfl)
        simpa using hfne
      · intro f hfm
        have hfmem : f ∈ s.items := List.mem_of_mem_filter hfm
        have hfid : f.id ≠ id := by
          have := (List.mem_filter.mp hfm).2
          simpa using this
        have hfk : f.key ≠ k := by
          intro hkk
          have : f = e := node_eq_of_key_eq h.keys_nodup hfmem he (by rw [hkk, hekey])
          rw [this] at hfid
          exact hfid heid
        refine List.mem_filter.mpr ⟨h.handle_complete f hfmem, by simpa using hfk⟩
      · exact le_trans (List.length_filter_le _ _) h.size_le

theorem mapFind_mapErase_none {m : List (Int × Nat)} {k k0 : Int}
    (hf : mapFind m k = none) : mapFind (mapErase m k0) k = none := by
  rw [mapFind_eq_none] at hf ⊢
  intro p hp
  exact hf p (List.mem_of_mem_filter hp)

/-- Emplacing a fresh node for an unindexed key preserves the invariant
when there is room. -/
theorem WF_prepend (s1 : LRUState) (h : WF s1) (k : Int) (v : String)
    (hf : mapFind s1.index k = none) (hlen : s1.items.length < s1.capacity) :
    WF { s1 with items := ⟨s1.nextId, k, v⟩ :: s1.items,
                 index := mapInsert s1.index k s1.nextId,
                 nextId := s1.nextId + 1 } := by
  have hknotin : ∀ f ∈ s1.items, f.key ≠ k := by
    intro f hfm hkk
    have hidx := h.handle_complete f hfm
    rw [hkk] at hidx
    exact (mapFind_eq_none.mp hf (k, f.id) hidx) rfl
  have hidnotin : ∀ f ∈ s1.items, f.id ≠ s1.nextId := by
    intro f hfm
    exact Nat.ne_of_lt (h.ids_lt f hfm)
  refine ⟨h.cap_pos, ?_, ?_, ?_, ?_, ?_, ?_, ?_⟩
  · rw [List.map_cons, List.nodup_cons]
    refine ⟨?_, h.keys_nodup⟩
    intro hmem
    obtain ⟨f, hfm, hfk⟩ := List.mem_map.mp hmem
    exact hknotin f hfm hfk
  · rw [List.map_cons, List.nodup_cons]
    refine ⟨?_, h.ids_nodup⟩
    intro hmem
    obtain ⟨f, hfm, hfk⟩ := List.mem_map.mp hmem
    exact hidnotin f hfm hfk
  · intro f hfm
    rcases List.mem_cons.mp hfm with rfl | hfm2
    · exact Nat.lt_succ_self _
    · exact Nat.lt_succ_of_lt (h.ids_lt f hfm2)
  · unfold mapInsert
    rw [List.map_cons, List.nodup_cons]
    constructor
    · intro hmem
      obtain ⟨p, hp, hpk⟩ := List.mem_map.mp hmem
      have hne := (List.mem_filter.mp hp).2
      simp only [decide_not, Bool.not_eq_true', decide_eq_false_iff_not] at hne
      exact hne hpk
    · exact ((List.filter_sublist _).map Prod.fst).nodup h.index_keys_nodup
  · intro k0 id0 hk0
    unfold mapInsert at hk0
    rcases List.mem_cons.mp hk0 with heq | htail
    · injection heq with h1 h2
      exact ⟨⟨s1.nextId, k, v⟩, List.mem_cons_self _ _, h2.symm, h1.symm⟩
    · have hmem := List.mem_of_mem_filter htail
      obtain ⟨f, hfm, hfi, hfk⟩ := h.handle_sound k0 id0 hmem
      exact ⟨f, List.mem_cons_of_mem _ hfm, hfi, hfk⟩
  · intro f hfm
    rcases List.mem_cons.mp hfm with rfl | hfm2
    · exact List.mem_cons_self _ _
    · have hidx := h.handle_complete f hfm2
      apply List.mem_cons_of_mem
      refine List.mem_filter.mpr ⟨hidx, ?_⟩
      simpa using hknotin f hfm2
  · simpa using Nat.succ_le_of_lt hlen

/-- Popping the tail node and unindexing its key preserves the invariant
and frees exactly one slot. -/
theorem WF_evict (s : LRUState) (h : WF s) (e : Node)
    (hlast : s.items.getLast? = some e) :
    WF { s with items := s.items.dropLast, index := mapErase s.index e.key } ∧
    s.items.dropLast.length + 1 = s.items.length := by
  have hdec : s.items.dropLast ++ [e] = s.items :=
    List.dropLast_append_getLast? e (by simp [hlast])
  have hsub : List.Sublist s.items.dropLast s.items := by
    conv_rhs => rw [← hdec]
    exact List.sublist_append_left _ _
  have hemem : e ∈ s.items := by
    rw [← hdec]
    exact List.mem_append_right _ (List.mem_singleton_self e)
  have hkeysplit : s.items.dropLast.map Node.key ++ [e.key] = s.items.map Node.key := by
    have hmapapp : s.items.dropLast.map Node.key ++ [e.key]
        = (s.items.dropLast ++ [e]).map Node.key := by
      rw [List.map_append]
      rfl
    rw [hmapapp, hdec]
  have hkeydisj : ∀ f ∈ s.items.dropLast, f.key ≠ e.key := by
    intro f hfm hkk
    have hnd : (s.items.dropLast.map Node.key ++ [e.key]).Nodup := by
      rw [hkeysplit]
      exact h.keys_nodup
    rcases List.nodup_append.mp hnd with ⟨h1, h2, hdisj⟩
    exact hdisj (List.mem_map.mpr ⟨f, hfm, hkk⟩) (List.mem_singleton_self _)
  refine ⟨⟨h.cap_pos, ?_, ?_, ?_, ?_, ?_, ?_, ?_⟩, ?_⟩
  · exact (hsub.map Node.key).nodup h.keys_nodup
  · exact (hsub.map Node.id).nodup h.ids_nodup
  · intro f hfm
    exact h.ids_lt f (hsub.mem hfm)
  · exact ((List.filter_sublist _).map Prod.fst).nodup h.index_keys_nodup
  · intro k0 id0 hk0
    have hk0m : (k0, id0) ∈ s.index := List.mem_of_mem_filter hk0
    have hk0ne : k0 ≠ e.key := by
      have hne := (List.mem_filter.mp hk0).2
      simpa using hne
    obtain ⟨f, hfm, hfi, hfk⟩ := h.handle_sound k0 id0 hk0m
    have hfdrop : f ∈ s.items.dropLast := by
      rw [← hdec] at hfm
      rcases List.mem_append.mp hfm with hin | hin
      · exact hin
      · exfalso
        rw [List.mem_singleton.mp hin] at hfk
        exact hk0ne hfk.symm
    exact ⟨f, hfdrop, hfi, hfk⟩
  · intro f hfm
    have hfull : f ∈ s.items := hsub.mem hfm
    refine List.mem_filter.mpr ⟨h.handle_complete f hfull, ?_⟩
    simpa using hkeydisj f hfm
  · exact le_trans (hsub.length_le) h.size_le
  · rw [← hdec, List.length_append]
    simp

/-- `LRUCache::Put` preserves the shard invariant. -/
theorem WF_put (s : LRUState) (k : Int) (v : String) (h : WF s) :
    WF (LRU.put s k v) := by
  cases hf : mapFind s.index k with
  | some id =>
      simp only [LRU.put, hf]
      have hids : (listUpdateVal s.items id v).map Node.id = s.items.map Node.id :=
        listUpdateVal_map_id s.items id v
      have hkeys : (listUpdateVal s.items id v).map Node.key = s.items.map Node.key :=
        listUpdateVal_map_key s.items id v
      have hperm := listSplice_perm (listUpdateVal s.items id v) id
        (by rw [hids]; exact h.ids_nodup)
      refine ⟨h.cap_pos, ?_, ?_, ?_, h.index_keys_nodup, ?_, ?_, ?_⟩
      · rw [(hperm.map Node.key).nodup_iff, hkeys]
        exact h.keys_nodup
      · rw [(hperm.map Node.id).nodup_iff, hids]
        exact h.ids_nodup
      · intro f hfm
        obtain ⟨e0, he0, hfi, hfk⟩ := listUpdateVal_mem_rev (hperm.mem_iff.mp hfm)
        rw [hfi]
        exact h.ids_lt e0 he0
      · intro k0 id0 hk0
        obtain ⟨e0, he0, hei, hek⟩ := h.handle_sound k0 id0 hk0
        obtain ⟨g, hg, hgi, hgk⟩ := listUpdateVal_mem he0 id v
        refine ⟨g, hperm.mem_iff.mpr hg, ?_, ?_⟩
        · rw [hgi, hei]
        · rw [hgk, hek]
      · intro f hfm
        obtain ⟨e0, he0, hfi, hfk⟩ := listUpdateVal_mem_rev (hperm.mem_iff.mp hfm)
        rw [hfi, hfk]
        exact h.handle_complete e0 he0
      · rw [hperm.length_eq]
        unfold listUpdateVal
        rw [List.length_map]
        exact h.size_le
  | none =>
      simp only [LRU.put, hf]
      by_cases hlen : s.items.length = s.capacity
      · rw [if_pos hlen]
        cases hl : s.items.getLast? with
        | none =>
            exfalso
            rw [List.getLast?_eq_none_iff] at hl
            rw [hl] at hlen
            have := h.cap_pos
            simp at hlen
            omega
        | some e =>
            obtain ⟨hwf1, hlen1⟩ := WF_evict s h e hl
            have hf1 : mapFind (mapErase s.index e.key) k = none :=
              mapFind_mapErase_none hf
            have hlt : s.items.dropLast.length
                < ({ s with items := s.items.dropLast,
                            index := mapErase s.index e.key } : LRUState).capacity := by
              simp only
              omega
            exact WF_prepend _ hwf1 k v hf1 hlt
      · rw [if_neg hlen]
        exact WF_prepend s h k v hf (lt_of_le_of_ne h.size_le hlen)

/-- An empty shard of positive capacity is well-formed. -/
theorem WF_init (C : Nat) (hC : 1 ≤ C) : WF (LRU.init C) := by
  refine ⟨hC, ?_, ?_, ?_, ?_, ?_, ?_, ?_⟩ <;> simp [LRU.init]

theorem WF_applyOp (s : LRUState) (op : CacheOp) (h : WF s) : WF (applyOp s op) := by
  cases op with
  | put k v => exact WF_put s k v h
  | get k => exact WF_get s k h
  | erase k => exact WF_erase s k h

theorem WF_applyOps (s : LRUState) (ops : List CacheOp) (h : WF s) :
    WF (applyOps s ops) := by
  induction ops generalizing s with
  | nil => exact h
  | cons op rest ih => exact ih (applyOp s op) (WF_applyOp s op h)

theorem capacity_put (s : LRUState) (k : Int) (v : String) :
    (LRU.put s k v).capacity = s.capacity := by
  unfold LRU.put
  cases mapFind s.index k with
  | some id => rfl
  | none =>
      simp only
      by_cases hlen : s.items.length = s.capacity
      · rw [if_pos hlen]
        cases s.items.getLast? <;> rfl
      · rw [if_neg hlen]

theorem capacity_get (s : LRUState) (k : Int) :
    (LRU.get s k).2.capacity = s.capacity := by
  unfold LRU.get
  split
  · rfl
  · split <;> rfl

theorem capacity_erase (s : LRUState) (k : Int) :
    (LRU.erase s k).capacity = s.capacity := by
  unfold LRU.erase
  cases mapFind s.index k <;> rfl

theorem capacity_applyOps (s : LRUState) (ops : List CacheOp) :
    (applyOps s ops).capacity = s.capacity := by
  induction ops generalizing s with
  | nil => rfl
  | cons op rest ih =>
      have hstep : (applyOp s op).capacity = s.capacity := by
        cases op with
        | put k v => exact capacity_put s k v
        | get k => exact capacity_get s k
        | erase k => exact capacity_erase s k
      have := ih (applyOp s op)
      rw [hstep] at this
      exact this

/-- C4: starting from an empty cache of capacity C ≥ 1, every sequence of
Put, Get and Erase operations preserves the shard invariant: the key set of
the index map equals the key set of the recency list, each key appears at
most once in the list, every index handle points to the list entry holding
that key, and the number of entries never exceeds C. -/
theorem c4_invariant_preserved (C : Nat) (hC : 1 ≤ C) (ops : List CacheOp) :
    (∀ k : Int, (∃ id, (k, id) ∈ (applyOps (LRU.init C) ops).index) ↔
        k ∈ (applyOps (LRU.init C) ops).items.map Node.key) ∧
    ((applyOps (LRU.init C) ops).items.map Node.key).Nodup ∧
    (∀ k id, (k, id) ∈ (applyOps (LRU.init C) ops).index →
        ∃ e ∈ (applyOps (LRU.init C) ops).items, e.id = id ∧ e.key = k) ∧
    (applyOps (LRU.init C) ops).items.length ≤ C := by
  have hwf := WF_applyOps (LRU.init C) ops (WF_init C hC)
  refine ⟨?_, hwf.keys_nodup, hwf.handle_sound, ?_⟩
  · intro k
    constructor
    · rintro ⟨id, hmem⟩
      obtain ⟨e, he, hei, hek⟩ := hwf.handle_sound k id hmem
      exact List.mem_map.mpr ⟨e, he, hek⟩
    · intro hk
      obtain ⟨e, he, hek⟩ := List.mem_map.mp hk
      refine ⟨e.id, ?_⟩
      rw [← hek]
      exact hwf.handle_complete e he
  · have hsz := hwf.size_le
    rw [capacity_applyOps] at hsz
    exact hsz

/-- C4 witness: a concrete mixed operation sequence on capacity 2. -/
theorem c4_invariant_preserved_witness :
    1 ≤ 2 ∧
    ((∀ k : Int, (∃ id, (k, id) ∈ (applyOps (LRU.init 2)
        [CacheOp.put 1 "a", CacheOp.put 2 "b", CacheOp.get 1,
         CacheOp.put 3 "c", CacheOp.erase 2]).index) ↔
        k ∈ (applyOps (LRU.init 2)
        [CacheOp.put 1 "a", CacheOp.put 2 "b", CacheOp.get 1,
         CacheOp.put 3 "c", CacheOp.erase 2]).items.map Node.key) ∧
    ((applyOps (LRU.init 2)
        [CacheOp.put 1 "a", CacheOp.put 2 "b", CacheOp.get 1,
         CacheOp.put 3 "c", CacheOp.erase 2]).items.map Node.key).Nodup ∧
    (∀ k id, (k, id) ∈ (applyOps (LRU.init 2)
        [CacheOp.put 1 "a", CacheOp.put 2 "b", CacheOp.get 1,
         CacheOp.put 3 "c", CacheOp.erase 2]).index →
        ∃ e ∈ (applyOps (LRU.init 2)
        [CacheOp.put 1 "a", CacheOp.put 2 "b", CacheOp.get 1,
         CacheOp.put 3 "c", CacheOp.erase 2]).items, e.id = id ∧ e.key = k) ∧
    (applyOps (LRU.init 2)
        [CacheOp.put 1 "a", CacheOp.put 2 "b", CacheOp.get 1,
         CacheOp.put 3 "c", CacheOp.erase 2]).items.length ≤ 2) :=
  ⟨by decide, c4_invariant_preserved 2 (by decide)
    [CacheOp.put 1 "a", CacheOp.put 2 "b", CacheOp.get 1,
     CacheOp.put 3 "c", CacheOp.erase 2]⟩

/-! ## Recency order (C6): a found lookup protects its key, eviction
removes exactly the tail -/

theorem mapFind_none_of_not_mem_keys (s : LRUState) (h : WF s) (k : Int)
    (hk : k ∉ keysOf s) : mapFind s.index k = none := by
  cases hf : mapFind s.index k with
  | none => rfl
  | some id =>
      obtain ⟨e, he, hei, hek⟩ := h.handle_sound k id (mapFind_mem hf)
      exact absurd (List.mem_map.mpr ⟨e, he, hek⟩) hk

/-- A fresh insert with room prepends the key. -/
theorem keysOf_put_fresh_room (s : LRUState) (h : WF s) (k : Int) (v : String)
    (hk : k ∉ keysOf s) (hroom : s.items.length < s.capacity) :
    keysOf (LRU.put s k v) = k :: keysOf s := by
  have hf := mapFind_none_of_not_mem_keys s h k hk
  simp only [LRU.put, hf]
  rw [if_neg (Nat.ne_of_lt hroom)]
  rfl

/-- A fresh insert into a full shard evicts the tail and prepends the key. -/
theorem keysOf_put_fresh_full (s : LRUState) (h : WF s) (k : Int) (v : String)
    (hk : k ∉ keysOf s) (hfull : s.items.length = s.capacity) :
    keysOf (LRU.put s k v) = k :: (keysOf s).dropLast := by
  have hf := mapFind_none_of_not_mem_keys s h k hk
  have hne : s.items ≠ [] := by
    intro hnil
    have hcap := h.cap_pos
    rw [hnil] at hfull
    simp at hfull
    omega
  cases hl : s.items.getLast? with
  | none =>
      rw [List.getLast?_eq_none_iff] at hl
      exact absurd hl hne
  | some e =>
      simp only [LRU.put, hf, hl]
      rw [if_pos hfull]
      simp [keysOf]

/-- The unique node carrying an identifier is what `find?` returns. -/
theorem find?_id_of_mem {l : List Node} (hids : (l.map Node.id).Nodup)
    {e : Node} (he : e ∈ l) : l.find? (fun x => x.id = e.id) = some e := by
  induction l with
  | nil => cases he
  | cons h t ih =>
      rw [List.map_cons, List.nodup_cons] at hids
      rcases List.mem_cons.mp he with rfl | ht
      · rw [List.find?_cons_of_pos _ (by simp)]
      · have hhe : h.id ≠ e.id := by
          intro hid
          apply hids.1
          rw [hid]
          exact List.mem_map.mpr ⟨e, ht, rfl⟩
        rw [List.find?_cons_of_neg _ (by simpa using hhe)]
        exact ih hids.2 ht

/-- Unlinking the node of a key removes exactly that key from the key
sequence. -/
theorem filter_map_key_erase : ∀ {l : List Node} {e : Node},
    (l.map Node.key).Nodup → (l.map Node.id).Nodup → e ∈ l →
    (l.filter (fun x => x.id ≠ e.id)).map Node.key = (l.map Node.key).erase e.key := by
  intro l
  induction l with
  | nil => intro e _ _ he; cases he
  | cons h t ih =>
      intro e hkeys hids he
      rw [List.map_cons, List.nodup_cons] at hkeys hids
      by_cases hh : h.id = e.id
      · have hhe : h = e := by
          rcases List.mem_cons.mp he with rfl | ht
          · rfl
          · exfalso
            apply hids.1
            rw [hh]
            exact List.mem_map.mpr ⟨e, ht, rfl⟩
        subst hhe
        rw [List.filter_cons_of_neg (by simp [hh])]
        have hfix : t.filter (fun x => x.id ≠ h.id) = t := by
          apply List.filter_eq_self.mpr
          intro x hx
          have hxid : x.id ≠ h.id := by
            intro hxe
            apply hids.1
            rw [← hxe]
            exact List.mem_map.mpr ⟨x, hx, rfl⟩
          simpa using hxid
        rw [hfix, List.map_cons, List.erase_cons_head]
      · have ht : e ∈ t := by
          rcases List.mem_cons.mp he with rfl | ht2
          · exact absurd rfl hh
          · exact ht2
        have hkne : h.key ≠ e.key := by
          intro hke
          apply hkeys.1
          rw [hke]
          exact List.mem_map.mpr ⟨e, ht, rfl⟩
        rw [List.filter_cons_of_pos (by simpa using hh)]
        simp only [List.map_cons]
        rw [List.erase_cons_tail (by simpa using hkne), ih hkeys.2 hids.2 ht]

/-- A hit on `LRUCache::Get` returns a value and moves the key to the head
of the key sequence, erasing it from its old position. -/
theorem keysOf_get_hit (s : LRUState) (h : WF s) (k : Int) (hk : k ∈ keysOf s) :
    (LRU.get s k).1.isSome = true ∧
    keysOf (LRU.get s k).2 = k :: (keysOf s).erase k := by
  obtain ⟨e, he, hek⟩ := List.mem_map.mp hk
  have hidx : (k, e.id) ∈ s.index := by
    rw [← hek]
    exact h.handle_complete e he
  have hf : mapFind s.index k = some e.id := mapFind_of_mem h.index_keys_nodup hidx
  have hfind := find?_id_of_mem h.ids_nodup he
  constructor
  · simp [LRU.get, hf, hfind]
  · simp only [LRU.get, hf, hfind, listSplice]
    show (e :: s.items.filter (fun x => x.id ≠ e.id)).map Node.key
        = k :: (s.items.map Node.key).erase k
    rw [List.map_cons, filter_map_key_erase h.keys_nodup h.ids_nodup he, hek]

/-- Insert keys 1..n in order into an empty cache of capacity C (the
touch-protects scenario prefix). -/
def fillUp (C : Nat) : Nat → LRUState
  | 0 => LRU.init C
  | n + 1 => LRU.put (fillUp C n) ((n : Int) + 1) "v"

/-- The descending key list n, n-1, ..., 1. -/
def descKeys : Nat → List Int
  | 0 => []
  | n + 1 => ((n : Int) + 1) :: descKeys n

theorem descKeys_length : ∀ n, (descKeys n).length = n
  | 0 => rfl
  | n + 1 => by simp [descKeys, descKeys_length n]

theorem mem_descKeys : ∀ (n : Nat) (k : Int), k ∈ descKeys n ↔ 1 ≤ k ∧ k ≤ (n : Int) := by
  intro n
  induction n with
  | zero =>
      intro k
      simp only [descKeys, List.not_mem_nil, false_iff, not_and, Nat.cast_zero]
      omega
  | succ m ih =>
      intro k
      simp only [descKeys, List.mem_cons, ih]
      push_cast
      omega

theorem descKeys_nodup : ∀ n, (descKeys n).Nodup := by
  intro n
  induction n with
  | zero => simp [descKeys]
  | succ m ih =>
      rw [descKeys, List.nodup_cons]
      refine ⟨?_, ih⟩
      rw [mem_descKeys]
      omega

theorem descKeys_erase_one : ∀ n,
    (descKeys (n + 1)).erase 1 = (descKeys n).map (fun x => x + 1) := by
  intro n
  induction n with
  | zero => simp [descKeys]
  | succ m ih =>
      have hne : ((m : Int) + 1) + 1 ≠ 1 := by omega
      show ((((m + 1 : Nat) : Int) + 1) :: descKeys (m + 1)).erase 1
          = (descKeys (m + 1)).map (fun x => x + 1)
      rw [List.erase_cons_tail (by push_cast; simpa using hne), ih]
      show (((m + 1 : Nat) : Int) + 1) :: (descKeys m).map (fun x => x + 1)
          = (((m : Int) + 1) + 1) :: (descKeys m).map (fun x => x + 1)
      congr 1

/-- The full shard after inserting 1..n: keys descend n..1, the shard is
well-formed, the capacity is C and the size is n. -/
theorem fillUp_spec (C : Nat) (hC : 1 ≤ C) : ∀ n, n ≤ C →
    keysOf (fillUp C n) = descKeys n ∧ WF (fillUp C n) ∧
    (fillUp C n).capacity = C := by
  intro n
  induction n with
  | zero =>
      intro _
      exact ⟨rfl, WF_init C hC, rfl⟩
  | succ m ih =>
      intro hm
      obtain ⟨hkeys, hwf, hcap⟩ := ih (Nat.le_of_succ_le hm)
      have hfresh : ((m : Int) + 1) ∉ keysOf (fillUp C m) := by
        rw [hkeys, mem_descKeys]
        omega
      have hlen : (fillUp C m).items.length = m := by
        have h1 : (fillUp C m).items.length = (keysOf (fillUp C m)).length := by
          simp [keysOf]
        rw [h1, hkeys, descKeys_length]
      have hroom : (fillUp C m).items.length < (fillUp C m).capacity := by
        rw [hlen, hcap]
        omega
      refine ⟨?_, WF_put _ _ _ hwf, ?_⟩
      · show keysOf (LRU.put (fillUp C m) ((m : Int) + 1) "v") = descKeys (m + 1)
        rw [keysOf_put_fresh_room _ hwf _ _ hfresh hroom, hkeys]
        rfl
      · show (LRU.put (fillUp C m) ((m : Int) + 1) "v").capacity = C
        rw [capacity_put, hcap]

theorem descKeys_dropLast : ∀ n,
    (descKeys (n + 1)).dropLast = (descKeys n).map (fun x => x + 1) := by
  intro n
  induction n with
  | zero => simp [descKeys]
  | succ m ih =>
      show ((((m + 1 : Nat) : Int) + 1) :: descKeys (m + 1)).dropLast
          = (descKeys (m + 1)).map (fun x => x + 1)
      rw [List.dropLast_cons_of_ne_nil (by simp [descKeys]), ih]
      show (((m + 1 : Nat) : Int) + 1) :: (descKeys m).map (fun x => x + 1)
          = (((m : Int) + 1) + 1) :: (descKeys m).map (fun x => x + 1)
      congr 1

/-- The final state of the touch-protects scenario: fill keys 1..C into an
empty cache of capacity C, look key 1 up, then insert key C+1. -/
def touchScenario (C : Nat) : LRUState :=
  LRU.put (LRU.get (fillUp C C) 1).2 ((C : Int) + 1) "w"

/-- C6: with capacity C ≥ 2, after inserting keys 1..C, a found lookup of
key 1, and an insert of key C+1, the evicted key is 2 while key 1 and all
the keys 3..C+1 remain present: the found lookup moved key 1 to the head
and the eviction removed exactly the tail entry, which was key 2. -/
theorem c6_touch_protects (C : Nat) (hC : 2 ≤ C) :
    (LRU.get (fillUp C C) 1).1.isSome = true ∧
    (2 : Int) ∉ keysOf (touchScenario C) ∧
    (1 : Int) ∈ keysOf (touchScenario C) ∧
    (∀ j : Int, 3 ≤ j → j ≤ (C : Int) + 1 → j ∈ keysOf (touchScenario C)) := by
  obtain ⟨k, rfl⟩ := Nat.exists_eq_add_of_le hC
  obtain ⟨hkeys, hwf, hcap⟩ := fillUp_spec (2 + k) (by omega) (2 + k) (le_refl _)
  have h1mem : (1 : Int) ∈ keysOf (fillUp (2 + k) (2 + k)) := by
    rw [hkeys, mem_descKeys]
    refine ⟨le_refl 1, ?_⟩
    push_cast
    omega
  obtain ⟨hsome, hkeys1⟩ := keysOf_get_hit _ hwf 1 h1mem
  set s1 := (LRU.get (fillUp (2 + k) (2 + k)) 1).2 with hs1
  have hwf1 : WF s1 := WF_get _ 1 hwf
  have hcap1 : s1.capacity = 2 + k := by rw [hs1, capacity_get, hcap]
  have h2k : 2 + k = (1 + k) + 1 := by omega
  have hkeys1b : keysOf s1 = 1 :: (descKeys (1 + k)).map (fun x => x + 1) := by
    rw [hkeys1, hkeys, h2k, descKeys_erase_one]
  have hlen1 : s1.items.length = 2 + k := by
    have h1 : s1.items.length = (keysOf s1).length := by simp [keysOf]
    rw [h1, hkeys1b]
    simp [descKeys_length]
    omega
  have hfresh : (((2 + k : Nat) : Int) + 1) ∉ keysOf s1 := by
    rw [hkeys1b]
    intro hmem
    rcases List.mem_cons.mp hmem with h1 | h2
    · push_cast at h1
      omega
    · obtain ⟨x, hx, hxe⟩ := List.mem_map.mp h2
      rw [mem_descKeys] at hx
      push_cast at hxe hx
      omega
  have hfull : s1.items.length = s1.capacity := by rw [hlen1, hcap1]
  have hkeys2 : keysOf (touchScenario (2 + k))
      = (((2 + k : Nat) : Int) + 1) :: (keysOf s1).dropLast := by
    show keysOf (LRU.put (LRU.get (fillUp (2 + k) (2 + k)) 1).2
        (((2 + k : Nat) : Int) + 1) "w") = _
    rw [← hs1]
    exact keysOf_put_fresh_full s1 hwf1 _ "w" hfresh hfull
  have h1k : 1 + k = k + 1 := by omega
  have hdrop1 : (keysOf s1).dropLast
      = 1 :: ((descKeys k).map (fun x => x + 1)).map (fun x => x + 1) := by
    rw [hkeys1b]
    rw [List.dropLast_cons_of_ne_nil (by rw [h1k]; simp [descKeys])]
    rw [← List.map_dropLast, h1k, descKeys_dropLast]
  have hkeys2b : keysOf (touchScenario (2 + k))
      = (((2 + k : Nat) : Int) + 1)
        :: 1 :: ((descKeys k).map (fun x => x + 1)).map (fun x => x + 1) := by
    rw [hkeys2, hdrop1]
  refine ⟨hsome, ?_, ?_, ?_⟩
  · rw [hkeys2b]
    intro hmem
    rcases List.mem_cons.mp hmem with h1 | hmem2
    · push_cast at h1
      omega
    rcases List.mem_cons.mp hmem2 with h1 | hmem3
    · omega
    · obtain ⟨y, hy, hye⟩ := List.mem_map.mp hmem3
      obtain ⟨x, hx, hxe⟩ := List.mem_map.mp hy
      rw [mem_descKeys] at hx
      omega
  · rw [hkeys2b]
    exact List.mem_cons_of_mem _ (List.mem_cons_self _ _)
  · intro j h3 hle
    rw [hkeys2b]
    by_cases hj : j = ((2 + k : Nat) : Int) + 1
    · rw [hj]
      exact List.mem_cons_self _ _
    · apply List.mem_cons_of_mem
      apply List.mem_cons_of_mem
      push_cast at hle hj
      refine List.mem_map.mpr ⟨j - 1, List.mem_map.mpr ⟨j - 2, ?_, by ring⟩, by ring⟩
      rw [mem_descKeys]
      omega

/-- C6 witness: the scenario at capacity 2. -/
theorem c6_touch_protects_witness :
    2 ≤ 2 ∧
    ((LRU.get (fillUp 2 2) 1).1.isSome = true ∧
    (2 : Int) ∉ keysOf (touchScenario 2) ∧
    (1 : Int) ∈ keysOf (touchScenario 2) ∧
    (∀ j : Int, 3 ≤ j → j ≤ ((2 : Nat) : Int) + 1 → j ∈ keysOf (touchScenario 2))) :=
  ⟨by decide, c6_touch_protects 2 (by decide)⟩
